import Mathlib

/-!
# Verification of the KeccakTools parity engine (Keccak-fParity)

Shallow embedding of the parity bookkeeping fragment of KeccakTools
(`Sources/Keccak-fParity.h`).  Machine 64-bit words are modelled as `Nat`
with an explicit `% 2 ^ 64` wherever the C++ computation can overflow a
`UINT64`; 5-bit row values and 25-bit slice values are `Nat` with range
hypotheses in the theorems.  Parity vectors are `List Nat`.

The two inline functions `getPackedParityFromParity` and
`getParityFromPackedParity` are translated directly from the header.  The
remaining operations (`packParity`, `unpackParity`, the three `getParity`
overloads and the two slice/sheet conversions) are only declared in the
header; their bodies are modelled from the specification, as marked in
their doc comments.
-/

/-- OR-combination of `g i` over the index list `l` (helper used to express
"OR-combines ... for every z" style definitions). -/
def orOver (l : List Nat) (g : Nat → Nat) : Nat :=
  l.foldr (fun i acc => g i ||| acc) 0

/-- XOR-reduction of `g i` over the index list `l` (helper used to express
"XOR-reduces ..." style definitions). -/
def xorOver (l : List Nat) (g : Nat → Nat) : Nat :=
  l.foldr (fun i acc => g i ^^^ acc) 0

/-- From `Keccak-fParity.h` (inline):
`return (PackedParity)parity << (5*z);`
The cast widens `parity` to 64 bits and the shift is performed in a
`UINT64`, hence the `% 2 ^ 64`.  (For `5*z ≥ 64` the C++ shift is
undefined behaviour; the model arbitrarily truncates there, and every
theorem about that region carries the bound keeping the shift defined.) -/
def getPackedParityFromParity (parity z : Nat) : Nat :=
  (parity <<< (5 * z)) % 2 ^ 64

/-- From `Keccak-fParity.h` (inline):
`return (parity >> (5*z)) & 0x1F;` -/
def getParityFromPackedParity (parity z : Nat) : Nat :=
  (parity >>> (5 * z)) &&& 0x1F

/-- Modelled from the spec: `packParity` is declared in `Keccak-fParity.h`
but its body is not among the sources.  Spec section 4.2: `packAll(parity)`
"OR-combines `pack(parity[z], z)` for every z". -/
def packParity (parity : List Nat) : Nat :=
  orOver (List.range parity.length)
    (fun z => getPackedParityFromParity (parity.getD z 0) z)

/-- Modelled from the spec: `unpackParity` is declared in `Keccak-fParity.h`
but its body is not among the sources.  Spec section 4.3: `unpackAll` fills
the output (resized to length `laneSize`) with `unpack(packed, z)` for
`z` in `[0, laneSize)`. -/
def unpackParity (packedParity laneSize : Nat) : List Nat :=
  (List.range laneSize).map (fun z => getParityFromPackedParity packedParity z)

/-- Modelled from the spec: row `y` of a 25-bit slice value.  The slice
layout puts the bit at coordinates `(x, y)` at bit position `x + 5*y`, so
row `y` occupies bits `[5*y, 5*y+5)`. -/
def getRowFromSlice (slice y : Nat) : Nat :=
  (slice >>> (5 * y)) &&& 0x1F

/-- Modelled from the spec: `getParity(SliceValue)` is declared in
`Keccak-fParity.h` but its body is not among the sources.  Spec section
4.1: "XOR-reduces the 5 rows of the 25-bit slice together (row at y=0 XOR
row at y=1 XOR ... XOR row at y=4)". -/
def getParityOfSlice (slice : Nat) : Nat :=
  xorOver (List.range 5) (fun y => getRowFromSlice slice y)

/-- Modelled from the spec: the overload
`getParity(const vector<SliceValue>&, vector<RowValue>&)` is declared in
`Keccak-fParity.h` but its body is not among the sources.  Spec section
4.1: the per-slice computation applied slice by slice, output written by
index. -/
def getParitySlices (state : List Nat) : List Nat :=
  state.map getParityOfSlice

/-- Modelled from the spec: the overload
`getParity(const vector<LaneValue>&, vector<LaneValue>&)` is declared in
`Keccak-fParity.h` but its body is not among the sources.  Spec section
4.1: "for each sheet x, XOR-reduce the 5 lanes (y=0..4) sharing that x";
the lane at coordinates `(x, y)` sits at index `x + 5*y` of the state
vector. -/
def getParityLanes (state : List Nat) : List Nat :=
  (List.range 5).map (fun x =>
    xorOver (List.range 5) (fun y => state.getD (x + 5 * y) 0))

/-- Modelled from the spec: `fromSlicesToSheetsParity` is declared in
`Keccak-fParity.h` but its body is not among the sources.  Spec section
4.4: "for each x in [0,5), for each z in [0,L), extract bit x from
`paritySlices[z]` ... and place it at bit position z of output lane x". -/
def fromSlicesToSheetsParity (paritySlices : List Nat) : List Nat :=
  (List.range 5).map (fun x =>
    orOver (List.range paritySlices.length)
      (fun z => ((paritySlices.getD z 0 >>> x) &&& 1) <<< z))

/-- Modelled from the spec: `fromSheetsToSlicesParity` is declared in
`Keccak-fParity.h` but its body is not among the sources.  Spec section
4.4: "for each z in [0,L), for each x in [0,5), extract bit z of
`paritySheets[x]` and place it at bit x of `paritySlices[z]`"; the output
is pre-sized to the lane size, passed here as `laneSize`. -/
def fromSheetsToSlicesParity (paritySheets : List Nat) (laneSize : Nat) : List Nat :=
  (List.range laneSize).map (fun z =>
    orOver (List.range 5) (fun x => ((paritySheets.getD x 0 >>> z) &&& 1) <<< x))

example : packParity [1, 3, 5, 0] = 1 + 3 * 32 + 5 * 1024 := by decide
example : unpackParity (packParity [1, 3, 5, 0]) 4 = [1, 3, 5, 0] := by decide
example : fromSheetsToSlicesParity (fromSlicesToSheetsParity [3, 17]) 2 = [3, 17] := by
  decide
example : getParityOfSlice 0 = 0 := by decide

/-! ## Bit-level infrastructure -/

lemma testBit_orOver (l : List Nat) (g : Nat → Nat) (j : Nat) :
    (orOver l g).testBit j = l.any (fun i => (g i).testBit j) := by
  induction l with
  | nil => simp [orOver, Nat.zero_testBit]
  | cons a t ih =>
      show (g a ||| orOver t g).testBit j = _
      simp [Nat.testBit_or, ih]

lemma testBit_xorOver (l : List Nat) (g : Nat → Nat) (j : Nat) :
    (xorOver l g).testBit j
      = l.foldr (fun i b => ((g i).testBit j).xor b) false := by
  induction l with
  | nil => simp [xorOver, Nat.zero_testBit]
  | cons a t ih =>
      show (g a ^^^ xorOver t g).testBit j = _
      simp [Nat.testBit_xor, ih]

lemma any_range_single (n z : Nat) (f : Nat → Bool) (hz : z < n)
    (h0 : ∀ i, i < n → i ≠ z → f i = false) :
    (List.range n).any f = f z := by
  cases hfz : f z with
  | true => exact List.any_eq_true.mpr ⟨z, List.mem_range.mpr hz, hfz⟩
  | false =>
      apply List.any_eq_false.mpr
      intro i hi
      rcases eq_or_ne i z with rfl | hne
      · simp [hfz]
      · simp [h0 i (List.mem_range.mp hi) hne]

lemma any_range_false (n : Nat) (f : Nat → Bool)
    (h0 : ∀ i, i < n → f i = false) : (List.range n).any f = false := by
  apply List.any_eq_false.mpr
  intro i hi
  simp [h0 i (List.mem_range.mp hi)]

lemma foldr_xor_congr (l : List Nat) (f g : Nat → Bool)
    (h : ∀ i ∈ l, f i = g i) :
    l.foldr (fun i b => (f i).xor b) false
      = l.foldr (fun i b => (g i).xor b) false := by
  induction l with
  | nil => rfl
  | cons a t ih =>
      simp only [List.foldr_cons]
      rw [h a (by simp), ih (fun i hi => h i (by simp [hi]))]

lemma foldr_xor_false (l : List Nat) (f : Nat → Bool)
    (h : ∀ i ∈ l, f i = false) :
    l.foldr (fun i b => (f i).xor b) false = false := by
  induction l with
  | nil => rfl
  | cons a t ih =>
      simp only [List.foldr_cons]
      rw [h a (by simp), ih (fun i hi => h i (by simp [hi]))]
      rfl

lemma foldr_xor_split (l : List Nat) (f g : Nat → Bool) :
    l.foldr (fun i b => ((f i).xor (g i)).xor b) false
      = (l.foldr (fun i b => (f i).xor b) false).xor
          (l.foldr (fun i b => (g i).xor b) false) := by
  induction l with
  | nil => rfl
  | cons a t ih =>
      simp only [List.foldr_cons, ih]
      cases f a <;> cases g a
        <;> cases t.foldr (fun i b => (f i).xor b) false
        <;> cases t.foldr (fun i b => (g i).xor b) false
        <;> rfl

lemma testBit_and_31 (x j : Nat) :
    (x &&& 31).testBit j = (x.testBit j && decide (j < 5)) := by
  have h31 : (31 : Nat) = 2 ^ 5 - 1 := by norm_num
  rw [Nat.testBit_and, h31, Nat.testBit_two_pow_sub_one]

lemma testBit_and_1 (x j : Nat) :
    (x &&& 1).testBit j = (x.testBit j && decide (j < 1)) := by
  rw [Nat.testBit_and]
  cases j with
  | zero => simp
  | succ k =>
      have h1 : Nat.testBit 1 (k + 1) = false :=
        Nat.testBit_eq_false_of_lt (by
          calc (1 : Nat) < 2 ^ 1 := by norm_num
            _ ≤ 2 ^ (k + 1) :=
              Nat.pow_le_pow_right (show 0 < 2 by norm_num) (by omega))
      simp [h1]

lemma testBit_small (v j : Nat) (hv : v < 32) (hj : 5 ≤ j) : v.testBit j = false :=
  Nat.testBit_eq_false_of_lt
    (lt_of_lt_of_le hv (Nat.pow_le_pow_right (show 0 < 2 by norm_num) hj))

lemma testBit_bit_small (v j : Nat) (hv : v ≤ 1) (hj : 1 ≤ j) : v.testBit j = false :=
  Nat.testBit_eq_false_of_lt
    (lt_of_le_of_lt hv (by
      calc (1 : Nat) < 2 ^ 1 := by norm_num
        _ ≤ 2 ^ j := Nat.pow_le_pow_right (show 0 < 2 by norm_num) hj))

lemma testBit_getPackedParityFromParity (v z j : Nat) :
    (getPackedParityFromParity v z).testBit j
      = (decide (j < 64) && (decide (j ≥ 5 * z) && v.testBit (j - 5 * z))) := by
  show ((v <<< (5 * z)) % 2 ^ 64).testBit j = _
  rw [Nat.testBit_mod_two_pow, Nat.testBit_shiftLeft]

lemma testBit_getParityFromPackedParity (p z j : Nat) :
    (getParityFromPackedParity p z).testBit j
      = (p.testBit (5 * z + j) && decide (j < 5)) := by
  show ((p >>> (5 * z)) &&& 31).testBit j = _
  rw [testBit_and_31, Nat.testBit_shiftRight]

/-- Reading slot `z'` of a word holding value `v` in slot `z`: `v` if
`z' = z`, zero otherwise. -/
lemma unpack_pack (v z z' : Nat) (hv : v ≤ 31) (hz : z < 8) :
    getParityFromPackedParity (getPackedParityFromParity v z) z'
      = if z' = z then v else 0 := by
  apply Nat.eq_of_testBit_eq
  intro j
  rw [testBit_getParityFromPackedParity, testBit_getPackedParityFromParity]
  by_cases hzz : z' = z
  · subst hzz
    rw [if_pos rfl]
    by_cases hj : j < 5
    · simp [show 5 * z' + j < 64 by omega, show 5 * z' + j ≥ 5 * z' by omega,
        show 5 * z' + j - 5 * z' = j by omega, hj]
    · simp [hj, testBit_small v j (by omega) (by omega)]
  · rw [if_neg hzz, Nat.zero_testBit]
    by_cases hj : j < 5
    · rcases lt_or_gt_of_ne hzz with hlt | hgt
      · simp [show ¬(5 * z' + j ≥ 5 * z) by omega]
      · by_cases hge : 5 * z' + j ≥ 5 * z
        · simp [testBit_small v (5 * z' + j - 5 * z) (by omega) (by omega)]
        · simp [hge]
    · simp [hj]

lemma getD_map_range (n : Nat) (f : Nat → Nat) (x : Nat) (hx : x < n) :
    ((List.range n).map f).getD x 0 = f x := by
  rw [List.getD_eq_getElem _ _ (by simp [hx])]
  simp [List.getElem_map, List.getElem_range]

lemma getD_map (l : List Nat) (f : Nat → Nat) (x : Nat) (hx : x < l.length) :
    (l.map f).getD x 0 = f (l.getD x 0) := by
  rw [List.getD_eq_getElem _ _ (by simp [hx]), List.getD_eq_getElem _ _ hx]
  simp [List.getElem_map]

lemma getD_le_31 (p : List Nat) (hall : ∀ v ∈ p, v ≤ 31) (z : Nat) :
    p.getD z 0 ≤ 31 := by
  by_cases h : z < p.length
  · rw [List.getD_eq_getElem p 0 h]
    exact hall _ (List.getElem_mem h)
  · rw [List.getD_eq_getElem?_getD, List.getElem?_eq_none (by omega)]
    simp

/-- Extracting slot `z` from a packed vector of at most 8 small values
returns the original element. -/
lemma unpack_packParity (p : List Nat) (hlen : p.length ≤ 8)
    (hall : ∀ v ∈ p, v ≤ 31) (z : Nat) (hz : z < p.length) :
    getParityFromPackedParity (packParity p) z = p.getD z 0 := by
  apply Nat.eq_of_testBit_eq
  intro j
  rw [testBit_getParityFromPackedParity]
  by_cases hj : j < 5
  · have hd : decide (j < 5) = true := by simp [hj]
    rw [hd, Bool.and_true, packParity, testBit_orOver]
    have hside : ∀ i, i < p.length → i ≠ z →
        (getPackedParityFromParity (p.getD i 0) i).testBit (5 * z + j) = false := by
      intro i hi hne
      rw [testBit_getPackedParityFromParity]
      have hvi : p.getD i 0 ≤ 31 := getD_le_31 p hall i
      rcases lt_or_gt_of_ne hne with hlt | hgt
      · rw [testBit_small (p.getD i 0) (5 * z + j - 5 * i) (by omega) (by omega)]
        simp
      · simp [show ¬(5 * z + j ≥ 5 * i) by omega]
    rw [any_range_single p.length z _ hz hside, testBit_getPackedParityFromParity]
    simp [show 5 * z + j < 64 by omega, show 5 * z + j ≥ 5 * z by omega,
      show 5 * z + j - 5 * z = j by omega]
  · have hvz : p.getD z 0 ≤ 31 := getD_le_31 p hall z
    rw [testBit_small (p.getD z 0) j (by omega) (by omega)]
    simp [hj]

/-! ## Claim theorems: packing and unpacking -/

/-- C2: for every laneSize L in [1,8] and every sequence of L row values
each in [0,31], packing with `packParity` and then unpacking with
`unpackParity` at laneSize L reproduces exactly the original sequence. -/
theorem packParity_unpackParity_roundtrip (L : Nat) (p : List Nat)
    (hL1 : 1 ≤ L) (hL8 : L ≤ 8) (hlen : p.length = L)
    (hall : ∀ v ∈ p, v ≤ 31) :
    unpackParity (packParity p) L = p := by
  subst hlen
  apply List.ext_getElem
  · simp [unpackParity]
  · intro n h1 h2
    have hn : n < p.length := by simpa [unpackParity] using h1
    simp only [unpackParity, List.getElem_map, List.getElem_range]
    rw [unpack_packParity p hL8 hall n hn, List.getD_eq_getElem p 0 hn]

/-- Witness for C2, on the spec's own concrete scenario (L = 4,
slices [1, 3, 5, 0]). -/
theorem packParity_unpackParity_roundtrip_witness :
    1 ≤ 4 ∧ 4 ≤ 8 ∧ ([1, 3, 5, 0] : List Nat).length = 4
      ∧ (∀ v ∈ ([1, 3, 5, 0] : List Nat), v ≤ 31)
      ∧ unpackParity (packParity [1, 3, 5, 0]) 4 = [1, 3, 5, 0] :=
  ⟨by decide, by decide, by decide, by decide,
    packParity_unpackParity_roundtrip 4 [1, 3, 5, 0] (by decide) (by decide)
      (by decide) (by decide)⟩

/-- As long as the field fits below bit 64, the 64-bit truncation inside
`getPackedParityFromParity` is the identity. -/
lemma pack_mod_eq (v z : Nat) (hv : v ≤ 31) (hz : z ≤ 11) :
    getPackedParityFromParity v z = v <<< (5 * z) := by
  unfold getPackedParityFromParity
  apply Nat.mod_eq_of_lt
  rw [Nat.shiftLeft_eq]
  calc v * 2 ^ (5 * z) < 2 ^ 5 * 2 ^ (5 * z) := by
        have h2 : 0 < 2 ^ (5 * z) := Nat.pos_pow_of_pos _ (by norm_num)
        have : v < 2 ^ 5 := by norm_num at *; omega
        exact (Nat.mul_lt_mul_right h2).mpr this
    _ = 2 ^ (5 * z + 5) := by rw [← Nat.pow_add]; ring_nf
    _ ≤ 2 ^ 64 := Nat.pow_le_pow_right (show 0 < 2 by norm_num) (by omega)

/-- C4: for a row value at most 31 and z < 8, `getPackedParityFromParity`
returns exactly the row value left-shifted by `5*z` (the 64-bit truncation
in the source is the identity there, so the word has the parity in bits
`[5z, 5z+5)` and zero elsewhere). -/
theorem getPackedParityFromParity_eq_shiftLeft (parity z : Nat)
    (hp : parity ≤ 31) (hz : z < 8) :
    getPackedParityFromParity parity z = parity <<< (5 * z) :=
  pack_mod_eq parity z hp (by omega)

/-- Witness for C4 at parity = 31, z = 7. -/
theorem getPackedParityFromParity_eq_shiftLeft_witness :
    31 ≤ 31 ∧ 7 < 8 ∧ getPackedParityFromParity 31 7 = 31 <<< 35 :=
  ⟨by decide, by decide,
    getPackedParityFromParity_eq_shiftLeft 31 7 (by decide) (by decide)⟩

/-- C5: `getParityFromPackedParity packed z` is exactly
`(packed >> 5*z) & 0x1F`, i.e. the 5-bit field stored for slot z
(arithmetically, `packed / 2^(5z) mod 32`). -/
theorem getParityFromPackedParity_eq_shift_mask (p z : Nat) :
    getParityFromPackedParity p z = (p >>> (5 * z)) &&& 0x1F
      ∧ getParityFromPackedParity p z = p / 2 ^ (5 * z) % 32 := by
  refine ⟨rfl, ?_⟩
  show (p >>> (5 * z)) &&& 31 = _
  rw [Nat.shiftRight_eq_div_pow]
  have h31 : (31 : Nat) = 2 ^ 5 - 1 := by norm_num
  rw [h31, Nat.and_pow_two_sub_one_eq_mod]

/-- C6: unpacking slot z of the word produced by packing a value v at
slot z returns v, and unpacking any other slot z' < 8 of that word
returns 0. -/
theorem unpack_pack_single_slot (z z' v : Nat) (hz : z < 8) (_hz' : z' < 8)
    (hv : v ≤ 31) (hne : z' ≠ z) :
    getParityFromPackedParity (getPackedParityFromParity v z) z = v
      ∧ getParityFromPackedParity (getPackedParityFromParity v z) z' = 0 := by
  constructor
  · rw [unpack_pack v z z hv hz, if_pos rfl]
  · rw [unpack_pack v z z' hv hz, if_neg hne]

/-- Witness for C6 at v = 21, z = 3, z' = 6. -/
theorem unpack_pack_single_slot_witness :
    getParityFromPackedParity (getPackedParityFromParity 21 3) 3 = 21
      ∧ getParityFromPackedParity (getPackedParityFromParity 21 3) 6 = 0 :=
  unpack_pack_single_slot 3 6 21 (by decide) (by decide) (by decide) (by decide)

/-- C9: for every 64-bit packed word and slot index z ≤ 12 (so that the
shift amount 5*z is defined), `getParityFromPackedParity` returns a value
in [0,31]: the RowValue invariant holds for every unpack result. -/
theorem getParityFromPackedParity_le_31 (p z : Nat)
    (_hp : p < 2 ^ 64) (_hz : z ≤ 12) :
    getParityFromPackedParity p z ≤ 31 :=
  Nat.and_le_right

/-- Witness for C9 at a word not produced by any valid pack. -/
theorem getParityFromPackedParity_le_31_witness :
    2 ^ 64 - 1 < 2 ^ 64 ∧ 12 ≤ 12
      ∧ getParityFromPackedParity (2 ^ 64 - 1) 12 ≤ 31 :=
  ⟨by norm_num, by decide,
    getParityFromPackedParity_le_31 (2 ^ 64 - 1) 12 (by norm_num) (by decide)⟩

/-- C10: single-slot packing and unpacking are XOR-homomorphisms: packing
`a XOR b` at slot z equals the XOR of the two packings, and unpacking the
XOR of two 64-bit words equals the XOR of the two unpackings. -/
theorem pack_unpack_xor_homomorphism (z a b p q : Nat) (_hz : z < 8)
    (_ha : a ≤ 31) (_hb : b ≤ 31) (_hp : p < 2 ^ 64) (_hq : q < 2 ^ 64) :
    getPackedParityFromParity (a ^^^ b) z
        = getPackedParityFromParity a z ^^^ getPackedParityFromParity b z
      ∧ getParityFromPackedParity (p ^^^ q) z
        = getParityFromPackedParity p z ^^^ getParityFromPackedParity q z := by
  constructor
  · apply Nat.eq_of_testBit_eq
    intro j
    simp only [Nat.testBit_xor, testBit_getPackedParityFromParity]
    cases decide (j < 64) <;> cases decide (j ≥ 5 * z)
      <;> cases a.testBit (j - 5 * z) <;> cases b.testBit (j - 5 * z) <;> rfl
  · apply Nat.eq_of_testBit_eq
    intro j
    simp only [Nat.testBit_xor, testBit_getParityFromPackedParity]
    cases p.testBit (5 * z + j) <;> cases q.testBit (5 * z + j)
      <;> cases decide (j < 5) <;> rfl

/-- Witness for C10 at z = 4, a = 21, b = 10, p = 2^40 + 77, q = 3. -/
theorem pack_unpack_xor_homomorphism_witness :
    getPackedParityFromParity (21 ^^^ 10) 4
        = getPackedParityFromParity 21 4 ^^^ getPackedParityFromParity 10 4
      ∧ getParityFromPackedParity (2 ^ 40 + 77 ^^^ 3) 4
        = getParityFromPackedParity (2 ^ 40 + 77) 4
            ^^^ getParityFromPackedParity 3 4 :=
  pack_unpack_xor_homomorphism 4 21 10 (2 ^ 40 + 77) 3 (by decide) (by decide)
    (by decide) (by norm_num) (by norm_num)

/-- C8 counterexample: the packed-parity operations perform no range
check.  Packing at the out-of-range slot z = 8 succeeds silently and
returns the ordinary word 2^40 (a nonzero value whose bit lies outside
all 8 valid slots), and unpacking with laneSize 9 > 8 succeeds silently,
returning 9 field values; neither call is rejected. -/
theorem packed_ops_unchecked_cex :
    getPackedParityFromParity 1 8 = 2 ^ 40
      ∧ (2 : Nat) ^ 40 ≠ 0
      ∧ unpackParity (2 ^ 40) 9 = [0, 0, 0, 0, 0, 0, 0, 0, 1] := by
  refine ⟨by decide, by norm_num, by decide⟩

/-- C8 (amended): the source contains no range check, so out-of-range
packed operations succeed silently: for 8 ≤ z ≤ 11 the packing silently
returns the value shifted past the 8-slot area, and unpacking with
laneSize L > 8 silently returns all L requested fields. -/
theorem packed_ops_unchecked (v z p L : Nat) (hv : v ≤ 31) (_hz1 : 8 ≤ z)
    (hz2 : z ≤ 11) (_hL : 8 < L) :
    getPackedParityFromParity v z = v <<< (5 * z)
      ∧ (unpackParity p L).length = L :=
  ⟨pack_mod_eq v z hv hz2, by simp [unpackParity]⟩

/-- Witness for the amended C8 at v = 1, z = 8, p = 0, L = 9. -/
theorem packed_ops_unchecked_witness :
    getPackedParityFromParity 1 8 = 1 <<< 40 ∧ (unpackParity 0 9).length = 9 :=
  packed_ops_unchecked 1 8 0 9 (by decide) (by decide) (by decide) (by decide)

/-! ## Slice/sheet conversion: bit-matrix transpose -/

lemma testBit_extract_bit (y x : Nat) :
    ((y >>> x) &&& 1).testBit 0 = y.testBit x := by
  rw [testBit_and_1, Nat.testBit_shiftRight]
  simp

/-- A lane assembled from single bits placed at distinct positions reads
back bit `j` as the bit placed at position `j` (when `j < n`). -/
lemma testBit_orOver_bits (n : Nat) (f : Nat → Nat) (hf : ∀ i, f i ≤ 1) (j : Nat) :
    (orOver (List.range n) (fun i => f i <<< i)).testBit j
      = (decide (j < n) && (f j).testBit 0) := by
  rw [testBit_orOver]
  by_cases hj : j < n
  · have hside : ∀ i, i < n → i ≠ j → (f i <<< i).testBit j = false := by
      intro i hi hne
      rw [Nat.testBit_shiftLeft]
      by_cases hge : j ≥ i
      · rw [testBit_bit_small (f i) (j - i) (hf i) (by omega)]
        simp
      · simp [hge]
    rw [any_range_single n j _ hj hside, Nat.testBit_shiftLeft]
    simp [hj, Nat.sub_self]
  · have hfalse : ∀ i, i < n → (f i <<< i).testBit j = false := by
      intro i hi
      rw [Nat.testBit_shiftLeft]
      by_cases hge : j ≥ i
      · rw [testBit_bit_small (f i) (j - i) (hf i) (by omega)]
        simp
      · simp [hge]
    rw [any_range_false n _ hfalse]
    simp [hj]

lemma length_fromSlicesToSheetsParity (P : List Nat) :
    (fromSlicesToSheetsParity P).length = 5 := by
  simp [fromSlicesToSheetsParity]

lemma length_fromSheetsToSlicesParity (Q : List Nat) (L : Nat) :
    (fromSheetsToSlicesParity Q L).length = L := by
  simp [fromSheetsToSlicesParity]

/-- Bit `j` of output lane `x` of the slices-to-sheets conversion is bit
`x` of input slice parity `j`. -/
lemma testBit_fromSlicesToSheets (P : List Nat) (x : Nat) (hx : x < 5) (j : Nat) :
    ((fromSlicesToSheetsParity P).getD x 0).testBit j
      = (decide (j < P.length) && (P.getD j 0).testBit x) := by
  rw [fromSlicesToSheetsParity, getD_map_range 5 _ x hx,
    testBit_orOver_bits P.length (fun z => (P.getD z 0 >>> x) &&& 1)
      (fun z => Nat.and_le_right) j,
    testBit_extract_bit]

/-- Bit `j` of output slice parity `z` of the sheets-to-slices conversion
is bit `z` of input lane `j`. -/
lemma testBit_fromSheetsToSlices (Q : List Nat) (L z : Nat) (hz : z < L) (j : Nat) :
    ((fromSheetsToSlicesParity Q L).getD z 0).testBit j
      = (decide (j < 5) && (Q.getD j 0).testBit z) := by
  rw [fromSheetsToSlicesParity, getD_map_range L _ z hz,
    testBit_orOver_bits 5 (fun x => (Q.getD x 0 >>> z) &&& 1)
      (fun x => Nat.and_le_right) j,
    testBit_extract_bit]

/-- Round trip starting from a valid parity-as-slices vector. -/
lemma slices_sheets_slices (P : List Nat) (hall : ∀ v ∈ P, v ≤ 31) :
    fromSheetsToSlicesParity (fromSlicesToSheetsParity P) P.length = P := by
  apply List.ext_getElem
  · simp [fromSheetsToSlicesParity]
  · intro z h1 h2
    rw [← List.getD_eq_getElem _ 0 h1]
    apply Nat.eq_of_testBit_eq
    intro j
    rw [testBit_fromSheetsToSlices (fromSlicesToSheetsParity P) P.length z h2 j]
    by_cases hj : j < 5
    · rw [testBit_fromSlicesToSheets P j hj z]
      simp [hj, h2, List.getD_eq_getElem P 0 h2]
    · have hb : P[z].testBit j = false := by
        have := hall P[z] (List.getElem_mem h2)
        exact testBit_small _ j (by omega) (by omega)
      simp [hj, hb]

/-- Round trip starting from a valid parity-as-sheets vector. -/
lemma sheets_slices_sheets (Q : List Nat) (L : Nat) (hlen : Q.length = 5)
    (hall : ∀ v ∈ Q, v < 2 ^ L) :
    fromSlicesToSheetsParity (fromSheetsToSlicesParity Q L) = Q := by
  apply List.ext_getElem
  · simp [fromSlicesToSheetsParity, hlen]
  · intro x h1 h2
    have hx : x < 5 := by simpa [fromSlicesToSheetsParity] using h1
    rw [← List.getD_eq_getElem _ 0 h1]
    apply Nat.eq_of_testBit_eq
    intro j
    rw [testBit_fromSlicesToSheets (fromSheetsToSlicesParity Q L) x hx j,
      length_fromSheetsToSlicesParity]
    by_cases hj : j < L
    · rw [testBit_fromSheetsToSlices Q L j hj x, List.getD_eq_getElem Q 0 h2]
      simp [hj, hx]
    · have hQx : Q[x].testBit j = false := by
        apply Nat.testBit_eq_false_of_lt
        exact lt_of_lt_of_le (hall _ (List.getElem_mem h2))
          (Nat.pow_le_pow_right (show 0 < 2 by norm_num) (by omega))
      simp [hj, hQx]

/-- C1: for every lane size L in {1,2,4,8,16,32,64}, converting a valid
parity-as-slices vector of length L with `fromSlicesToSheetsParity` and
back with `fromSheetsToSlicesParity` returns it unchanged, and
symmetrically a valid 5-lane parity-as-sheets vector confined to the low
L bits survives the round trip in the other order. -/
theorem slice_sheet_parity_inverse (L : Nat) (P Q : List Nat)
    (hL : L ∈ [1, 2, 4, 8, 16, 32, 64]) (hP : P.length = L)
    (hPv : ∀ v ∈ P, v ≤ 31) (hQ : Q.length = 5) (hQv : ∀ v ∈ Q, v < 2 ^ L) :
    fromSheetsToSlicesParity (fromSlicesToSheetsParity P) L = P
      ∧ fromSlicesToSheetsParity (fromSheetsToSlicesParity Q L) = Q := by
  subst hP
  exact ⟨slices_sheets_slices P hPv, sheets_slices_sheets Q P.length hQ hQv⟩

/-- Witness for C1 at L = 2, P = [3, 17], Q = [1, 2, 3, 0, 2]. -/
theorem slice_sheet_parity_inverse_witness :
    fromSheetsToSlicesParity (fromSlicesToSheetsParity [3, 17]) 2 = [3, 17]
      ∧ fromSlicesToSheetsParity (fromSheetsToSlicesParity [1, 2, 3, 0, 2] 2)
          = [1, 2, 3, 0, 2] :=
  slice_sheet_parity_inverse 2 [3, 17] [1, 2, 3, 0, 2] (by decide) (by decide)
    (by decide) (by decide) (by decide)

/-! ## Slice parity -/

lemma range5_eq : List.range 5 = [0, 1, 2, 3, 4] := by decide

lemma getParityOfSlice_eq_xor_rows (s : Nat) :
    getParityOfSlice s
      = getRowFromSlice s 0 ^^^ getRowFromSlice s 1 ^^^ getRowFromSlice s 2
          ^^^ getRowFromSlice s 3 ^^^ getRowFromSlice s 4 := by
  show xorOver (List.range 5) (fun y => getRowFromSlice s y) = _
  rw [range5_eq]
  show getRowFromSlice s 0 ^^^ (getRowFromSlice s 1 ^^^ (getRowFromSlice s 2
      ^^^ (getRowFromSlice s 3 ^^^ (getRowFromSlice s 4 ^^^ 0)))) = _
  rw [Nat.xor_zero]
  simp [Nat.xor_assoc]

lemma getRowFromSlice_lt (s y : Nat) : getRowFromSlice s y < 2 ^ 5 :=
  lt_of_le_of_lt Nat.and_le_right (by norm_num)

lemma getParityOfSlice_xor (a b : Nat) :
    getParityOfSlice (a ^^^ b) = getParityOfSlice a ^^^ getParityOfSlice b := by
  apply Nat.eq_of_testBit_eq
  intro j
  rw [Nat.testBit_xor]
  unfold getParityOfSlice
  simp only [testBit_xorOver]
  rw [← foldr_xor_split]
  apply foldr_xor_congr
  intro y _
  unfold getRowFromSlice
  rw [testBit_and_31, testBit_and_31, testBit_and_31, Nat.testBit_shiftRight,
    Nat.testBit_shiftRight, Nat.testBit_shiftRight, Nat.testBit_xor]
  cases a.testBit (5 * y + j) <;> cases b.testBit (5 * y + j)
    <;> cases decide (j < 5) <;> rfl

lemma or_eq_xor_of_disjoint (a b : Nat) (h : a &&& b = 0) :
    a ||| b = a ^^^ b := by
  apply Nat.eq_of_testBit_eq
  intro j
  have hj := congrArg (fun t => Nat.testBit t j) h
  simp only [Nat.testBit_and, Nat.zero_testBit] at hj
  rw [Nat.testBit_or, Nat.testBit_xor]
  cases ha : a.testBit j <;> cases hb : b.testBit j <;> simp_all

/-- C7: `getParityOfSlice` XOR-reduces the five 5-bit rows of a 25-bit
slice into a value in [0,31]; the parity of the all-zero slice is 0, and
the parity of a slice is the XOR of the parities of any bit-disjoint
decomposition of its rows. -/
theorem getParityOfSlice_xor_props (s a b : Nat) (_hs : s < 2 ^ 25)
    (hdisj : a &&& b = 0) (hsum : a ||| b = s) :
    getParityOfSlice s
        = getRowFromSlice s 0 ^^^ getRowFromSlice s 1 ^^^ getRowFromSlice s 2
            ^^^ getRowFromSlice s 3 ^^^ getRowFromSlice s 4
      ∧ getParityOfSlice s ≤ 31
      ∧ getParityOfSlice 0 = 0
      ∧ getParityOfSlice s = getParityOfSlice a ^^^ getParityOfSlice b := by
  refine ⟨getParityOfSlice_eq_xor_rows s, ?_, by decide, ?_⟩
  · rw [getParityOfSlice_eq_xor_rows s]
    have h : getRowFromSlice s 0 ^^^ getRowFromSlice s 1 ^^^ getRowFromSlice s 2
        ^^^ getRowFromSlice s 3 ^^^ getRowFromSlice s 4 < 2 ^ 5 :=
      Nat.xor_lt_two_pow
        (Nat.xor_lt_two_pow
          (Nat.xor_lt_two_pow
            (Nat.xor_lt_two_pow (getRowFromSlice_lt s 0) (getRowFromSlice_lt s 1))
            (getRowFromSlice_lt s 2))
          (getRowFromSlice_lt s 3))
        (getRowFromSlice_lt s 4)
    omega
  · rw [← hsum, or_eq_xor_of_disjoint a b hdisj, getParityOfSlice_xor]

/-- Witness for C7 on the slice 33 = 1 ||| 32 split into the disjoint
parts 1 (bit in row 0) and 32 (bit in row 1). -/
theorem getParityOfSlice_xor_props_witness :
    33 < 2 ^ 25 ∧ (1 &&& 32 : Nat) = 0 ∧ (1 ||| 32 : Nat) = 33
      ∧ (getParityOfSlice 33
            = getRowFromSlice 33 0 ^^^ getRowFromSlice 33 1 ^^^ getRowFromSlice 33 2
                ^^^ getRowFromSlice 33 3 ^^^ getRowFromSlice 33 4
          ∧ getParityOfSlice 33 ≤ 31
          ∧ getParityOfSlice 0 = 0
          ∧ getParityOfSlice 33 = getParityOfSlice 1 ^^^ getParityOfSlice 32) :=
  ⟨by norm_num, by decide, by decide,
    getParityOfSlice_xor_props 33 1 32 (by norm_num) (by decide) (by decide)⟩

/-! ## Extraction equivalence -/

/-- C3: for a state present in both layouts (slice z holds bit `(x,y)` of
the cube at position `x + 5*y`, lane `x + 5*y` holds it at position z),
computing per-slice parities and converting them to sheets gives exactly
the 5-lane parity computed directly from the lane layout. -/
theorem parity_extraction_equivalence (L : Nat) (slices lanes : List Nat)
    (hsl : slices.length = L) (hll : lanes.length = 25)
    (_hsv : ∀ s ∈ slices, s < 2 ^ 25) (hlv : ∀ l ∈ lanes, l < 2 ^ L)
    (hcorr : ∀ z < L, ∀ i < 25,
        (slices.getD z 0).testBit i = (lanes.getD i 0).testBit z) :
    fromSlicesToSheetsParity (getParitySlices slices) = getParityLanes lanes := by
  apply List.ext_getElem
  · simp [fromSlicesToSheetsParity, getParityLanes]
  · intro x h1 h2
    have hx : x < 5 := by simpa [getParityLanes] using h2
    rw [← List.getD_eq_getElem _ 0 h1, ← List.getD_eq_getElem _ 0 h2]
    apply Nat.eq_of_testBit_eq
    intro j
    rw [testBit_fromSlicesToSheets (getParitySlices slices) x hx j]
    have hlen : (getParitySlices slices).length = L := by simp [getParitySlices, hsl]
    rw [hlen, getParityLanes, getD_map_range 5 _ x hx, testBit_xorOver]
    by_cases hj : j < L
    · have hjs : j < slices.length := by omega
      have hd : decide (j < L) = true := by simp [hj]
      rw [hd, Bool.true_and, getParitySlices, getD_map slices _ j hjs]
      unfold getParityOfSlice
      rw [testBit_xorOver]
      apply foldr_xor_congr
      intro y hy
      have hy5 : y < 5 := List.mem_range.mp hy
      unfold getRowFromSlice
      rw [testBit_and_31, Nat.testBit_shiftRight]
      have hd5 : decide (x < 5) = true := by simp [hx]
      rw [hd5, Bool.and_true, show 5 * y + x = x + 5 * y by omega]
      exact hcorr j hj (x + 5 * y) (by omega)
    · have hl : decide (j < L) = false := by simp [hj]
      rw [hl, Bool.false_and]
      symm
      apply foldr_xor_false
      intro y hy
      have hy5 : y < 5 := List.mem_range.mp hy
      have hidx : x + 5 * y < lanes.length := by omega
      have hb : lanes.getD (x + 5 * y) 0 < 2 ^ L := by
        rw [List.getD_eq_getElem lanes 0 hidx]
        exact hlv _ (List.getElem_mem hidx)
      exact Nat.testBit_eq_false_of_lt (lt_of_lt_of_le hb
        (Nat.pow_le_pow_right (show 0 < 2 by norm_num) (by omega)))

/-- Witness for C3: L = 1, a single slice 3 (bits at (0,0) and (1,0)),
matching lane state with lanes 0 and 1 set. -/
theorem parity_extraction_equivalence_witness :
    ([3] : List Nat).length = 1
      ∧ ([1, 1, 0, 0, 0, 0, 0, 0, 0, 0, 0, 0, 0,
          0, 0, 0, 0, 0, 0, 0, 0, 0, 0, 0, 0] : List Nat).length = 25
      ∧ fromSlicesToSheetsParity (getParitySlices [3])
          = getParityLanes [1, 1, 0, 0, 0, 0, 0, 0, 0, 0, 0, 0, 0,
              0, 0, 0, 0, 0, 0, 0, 0, 0, 0, 0, 0] :=
  ⟨by decide, by decide,
    parity_extraction_equivalence 1 [3]
      [1, 1, 0, 0, 0, 0, 0, 0, 0, 0, 0, 0, 0,
        0, 0, 0, 0, 0, 0, 0, 0, 0, 0, 0, 0]
      (by decide) (by decide) (by norm_num) (by decide) (by decide)⟩
